import Mathlib

/-!
Shallow embedding of the three in-place integer sorts of this repository:

* `bubble_sort`    from a-common-sense-guide-to-data-structures-and-algorithms/
                   exercices/sorting-bubble-sort.cpp
* `selection_sort` from a-common-sense-guide-to-data-structures-and-algorithms/
                   exercices/sorting-selection-sort.cpp
* `insertion_sort` from cpp-data-structures-and-algorithms/sorting/insertion-sort.cpp

The C++ functions mutate a `std::array<int, 11>` in place.  Here a sequence is a
`List Int` (the algorithms are written against `arr.size()`, so the literal
length 11 is not hard-coded anywhere in the loop logic and the embedding keeps
the length general).  Every array read `arr[k]` is embedded as the checked
lookup `arr[k]?`; an out-of-bounds access, which is undefined behaviour in C++,
is the `none` result of the embedding.  Array writes are likewise guarded where
the source does not establish the bound via a read of the same index.  Index
arithmetic is `size_t` (unsigned, wrapping): the two places where the source
can wrap are `arr.size() - 1` at size 0 and `j--` at 0, and both are modelled
explicitly below.  `std::array::size()` is a compile-time constant, so the
loop bounds read it once and pass it around as a parameter `n`.
-/

/-- The number of values of the C++ type `size_t` (64-bit). -/
def USIZE : Nat := 2 ^ 64

/-- Unsigned `size_t` subtraction by one: `n - 1` wraps to `2^64 - 1` when `n = 0`.
A `std::array` has fewer than `2^64` elements, so for positive `n` this is
plain `n - 1`. -/
def sizeSub1 (n : Nat) : Nat :=
  match n with
  | 0 => USIZE - 1
  | m + 1 => m

/-! ## Bubble sort

```cpp
void bubble_sort(std::array<int, 11> &arr) {
  size_t end = arr.size() - 1;
  bool swapped = false;
  do {
    swapped = false;
    for (size_t i = 0; i < end; i++) {
      if (arr[i] > arr[i + 1]) {
        std::swap(arr[i], arr[i + 1]);
        swapped = true;
      }
    }
    end--;
  } while (swapped);
}
```

The pass and the outer do-while loop are instrumented with a swap counter and
a pass counter, so that the spec statements about the number of swaps and
passes can be expressed; `bubble_sort` itself forgets the counters. -/

/-- One inner pass `for (i = 0; i < end; i++)` of `bubble_sort`, starting at
index `i`, carrying the `swapped` flag and the number of swaps performed so
far.  `ed` is the (frozen) value of the variable `end` for this pass. -/
def bubblePass (arr : List Int) (ed i : Nat) (swapped : Bool) (swaps : Nat) :
    Option (List Int × Bool × Nat) :=
  if i < ed then
    match arr[i]?, arr[i+1]? with
    | some a, some b =>
      if a > b then
        bubblePass ((arr.set i b).set (i+1) a) ed (i+1) true (swaps + 1)
      else
        bubblePass arr ed (i+1) swapped swaps
    | _, _ => none
  else
    some (arr, swapped, swaps)
termination_by ed - i

/-- The do-while loop of `bubble_sort`: runs a pass, decrements `end`, and
repeats while the pass swapped something.  Returns the final array, the number
of passes and the total number of swaps.  A pass over an empty range
(`ed = 0`) cannot set `swapped`, so the wrap-around of `end--` at zero is
unreachable; that dead branch is mapped to `none`. -/
def bubbleLoop (arr : List Int) (ed : Nat) : Option (List Int × Nat × Nat) :=
  match bubblePass arr ed 0 false 0 with
  | none => none
  | some (a2, swapped, s) =>
    if swapped then
      match ed with
      | 0 => none
      | e + 1 =>
        match bubbleLoop a2 e with
        | none => none
        | some (a3, p, s2) => some (a3, p + 1, s + s2)
    else
      some (a2, 1, s)

/-- The whole instrumented run of `bubble_sort`:
`size_t end = arr.size() - 1;` followed by the do-while loop. -/
def bubbleRun (arr : List Int) : Option (List Int × Nat × Nat) :=
  bubbleLoop arr (sizeSub1 arr.length)

/-- Definition of `bubble_sort` as in the source: the sorted array, without the
instrumentation counters. -/
def bubble_sort (arr : List Int) : Option (List Int) :=
  (bubbleRun arr).map (fun x => x.1)

/-! ## Selection sort

```cpp
void selection_sort(std::array<int, 11> &arr) {
  for (size_t i = 0; i < arr.size(); i++) {
    int min = i;
    for (size_t j = i + 1; j < arr.size(); j++) {
      if (arr[j] < arr[min]) {
        min = j;
      }
    }
    if (min != i) {
      std::swap(arr[i], arr[min]);
    }
  }
}
```

Instrumented with a comparison counter (each evaluation of
`arr[j] < arr[min]`) and a swap counter. -/

/-- The inner loop of `selection_sort`: scans `j = i+1, ..., n-1` keeping the
index `min` of the least element seen so far.  Returns the final `min` and the
number of comparisons performed. -/
def selMinLoop (arr : List Int) (n j min : Nat) : Option (Nat × Nat) :=
  if j < n then
    match arr[j]?, arr[min]? with
    | some a, some b =>
      match selMinLoop arr n (j+1) (if a < b then j else min) with
      | none => none
      | some (m, c) => some (m, c + 1)
    | _, _ => none
  else
    some (min, 0)
termination_by n - j

/-- One iteration of the outer loop of `selection_sort` at index `i`:
find the minimum of the suffix, swap it to position `i` unless it is already
there.  Returns the new array, the comparisons made and the swaps made (0 or
1). -/
def selStep (arr : List Int) (n i : Nat) : Option (List Int × Nat × Nat) :=
  match selMinLoop arr n (i+1) i with
  | none => none
  | some (min, c) =>
    if min ≠ i then
      match arr[i]?, arr[min]? with
      | some a, some b => some ((arr.set i b).set min a, c, 1)
      | _, _ => none
    else
      some (arr, c, 0)

/-- The outer loop `for (i = 0; i < arr.size(); i++)` of `selection_sort`,
accumulating comparison and swap counts. -/
def selOuter (arr : List Int) (n i : Nat) : Option (List Int × Nat × Nat) :=
  if i < n then
    match selStep arr n i with
    | none => none
    | some (a2, c, s) =>
      match selOuter a2 n (i+1) with
      | none => none
      | some (a3, c2, s2) => some (a3, c + c2, s + s2)
  else
    some (arr, 0, 0)
termination_by n - i

/-- The whole instrumented run of `selection_sort`. -/
def selRun (arr : List Int) : Option (List Int × Nat × Nat) :=
  selOuter arr arr.length 0

/-- Definition of `selection_sort` as in the source, without the instrumentation
counters. -/
def selection_sort (arr : List Int) : Option (List Int) :=
  (selRun arr).map (fun x => x.1)

/-- The loop invariant of `selection_sort` before iteration `i` of the outer
loop (equivalently, after iterations `0 .. i-1` have completed): the prefix of
positions `0 .. i-1` is sorted, and every element of that prefix is at most
every element of the remaining suffix.  Together with the fact that each
iteration permutes the array, the second conjunct says the prefix holds the
`i` smallest elements of the multiset. -/
def SelInv (arr : List Int) (i : Nat) : Prop :=
  List.Sorted (· ≤ ·) (arr.take i) ∧
    ∀ x ∈ arr.take i, ∀ y ∈ arr.drop i, x ≤ y

/-! ## Insertion sort

```cpp
void insertion_sort(std::array<int, 11> &arr) {
  for (size_t i = 0; i < arr.size() - 1; i++) {
    int temp = arr[i + 1];
    size_t j = i;
    while (j >= 0 && arr[j] > temp) {
      arr[j + 1] = arr[j];
      j--;
    }
    arr[j + 1] = temp;
  }
}
```

`j` has type `size_t`, so the test `j >= 0` is always true: when `j = 0` and
`arr[0] > temp` the decrement `j--` wraps `j` around to `2^64 - 1` and the
next evaluation of `arr[j]` reads far out of bounds.  The embedding maps that
wrap-around to the error result `none` (the wrapped index exceeds the length
of any `std::array`).

The element comparison is taken as a parameter `gt` (the source instantiates
it with `>` on `int`), so that stability can be stated over key-tagged
elements sorted by the same algorithm on their keys. -/

/-- The inner shifting loop `while (j >= 0 && arr[j] > temp)` of
`insertion_sort`.  Returns the shifted array together with the value of `j`
at exit.  The write `arr[j + 1] = arr[j]` is bounds-checked like every other
access. -/
def insertLoop {α : Type} (gt : α → α → Bool) (arr : List α) (temp : α) (j : Nat) :
    Option (List α × Nat) :=
  match arr[j]? with
  | none => none
  | some v =>
    if gt v temp then
      if j + 1 < arr.length then
        match j with
        | 0 => none
        | k + 1 => insertLoop gt (arr.set (j+1) v) temp k
      else none
    else
      some (arr, j)

/-- The outer loop `for (i = 0; i < arr.size() - 1; i++)` of `insertion_sort`,
with the final placement `arr[j + 1] = temp` after each inner loop. -/
def insertOuter {α : Type} (gt : α → α → Bool) (arr : List α) (n i : Nat) :
    Option (List α) :=
  if i < sizeSub1 n then
    match arr[i+1]? with
    | none => none
    | some temp =>
      match insertLoop gt arr temp i with
      | none => none
      | some (arr2, j) =>
        if j + 1 < arr2.length then
          insertOuter gt (arr2.set (j+1) temp) n (i+1)
        else none
  else
    some arr
termination_by sizeSub1 n - i

/-- Definition of `insertion_sort` as in the source: elements are `int`, the comparison is
`arr[j] > temp`. -/
def insertion_sort (arr : List Int) : Option (List Int) :=
  insertOuter (fun a b : Int => a > b) arr arr.length 0

/-- The same insertion-sort algorithm run on key-tagged elements, comparing
only the keys.  Used to state stability: the tag records the original
position of an element without influencing the comparisons. -/
def insertionSortKeyed (l : List (Int × Nat)) : Option (List (Int × Nat)) :=
  insertOuter (fun p q => p.1 > q.1) l l.length 0

/-! ## General list helpers -/

/-- A list splits at any position holding a known element. -/
theorem getElem_some_split {α : Type} {l : List α} {i : Nat} {a : α}
    (h : l[i]? = some a) : l = l.take i ++ a :: l.drop (i+1) := by
  obtain ⟨hi, ha⟩ := List.getElem?_eq_some.1 h
  conv_lhs => rw [← List.take_append_drop i l]
  rw [List.drop_eq_getElem_cons hi, ha]

/-- Reading an in-bounds index through `getD`. -/
theorem getD_of_getElem (l : List Int) (k : Nat) (h : k < l.length) :
    l[k]? = some (l.getD k 0) := by
  simp [List.getD_eq_getElem?_getD, List.getElem?_eq_getElem h]

/-- Every member of `l.drop i` sits at some index `k ≥ i`. -/
theorem mem_drop_exists (l : List Int) (i : Nat) (x : Int) (hx : x ∈ l.drop i) :
    ∃ k, i ≤ k ∧ k < l.length ∧ l.getD k 0 = x := by
  obtain ⟨m, hm⟩ := List.mem_iff_getElem?.1 hx
  rw [List.getElem?_drop] at hm
  obtain ⟨hlt, hval⟩ := List.getElem?_eq_some.1 hm
  refine ⟨i + m, Nat.le_add_right i m, hlt, ?_⟩
  simp [List.getD_eq_getElem?_getD, List.getElem?_eq_getElem hlt, hval]

/-- Dropping `i` elements exposes the element at index `i` as the head. -/
theorem drop_eq_getD_cons {l : List Int} {i : Nat} (h : i < l.length) :
    l.drop i = l.getD i 0 :: l.drop (i+1) := by
  rw [List.drop_eq_getElem_cons h]
  simp [List.getD_eq_getElem?_getD, List.getElem?_eq_getElem h]

/-- Two lists with a common prefix and permuted suffixes are permutations. -/
theorem perm_of_take_drop {α : Type} {l1 l2 : List α} (i : Nat)
    (ht : l1.take i = l2.take i) (hd : (l1.drop i).Perm (l2.drop i)) :
    l1.Perm l2 := by
  conv_lhs => rw [← List.take_append_drop i l1]
  conv_rhs => rw [← List.take_append_drop i l2]
  rw [ht]
  exact (List.perm_append_left_iff _).2 hd

/-- Writing the values at two positions of a list over to each other, the way
`std::swap(arr[i], arr[j])` does, permutes the list. -/
theorem swap_set_set_perm {α : Type} {l : List α} {i j : Nat} {a b : α}
    (hij : i < j) (ha : l[i]? = some a) (hb : l[j]? = some b) :
    ((l.set i b).set j a).Perm l := by
  have hi : i < l.length := (List.getElem?_eq_some.1 ha).1
  have hj : j < l.length := (List.getElem?_eq_some.1 hb).1
  have hXb : (l.drop (i+1))[j - i - 1]? = some b := by
    rw [List.getElem?_drop]
    have : i + 1 + (j - i - 1) = j := by omega
    rw [this]; exact hb
  have hX : l.drop (i+1) =
      (l.drop (i+1)).take (j - i - 1) ++ b :: (l.drop (i+1)).drop (j - i) := by
    have := getElem_some_split hXb
    have harith : j - i - 1 + 1 = j - i := by omega
    rwa [harith] at this
  have hl : l = l.take i ++ a :: ((l.drop (i+1)).take (j - i - 1) ++
      b :: (l.drop (i+1)).drop (j - i)) := by
    conv_lhs => rw [getElem_some_split ha, hX]
  have hswapped : (l.set i b).set j a = l.take i ++ b :: ((l.drop (i+1)).take (j - i - 1) ++
      a :: (l.drop (i+1)).drop (j - i)) := by
    rw [List.set_eq_take_cons_drop b hi]
    rw [List.set_append]
    have hlen : (l.take i).length = i := List.length_take_of_le (Nat.le_of_lt hi)
    rw [if_neg (by omega)]
    have hji : j - (l.take i).length = (j - i - 1) + 1 := by omega
    rw [hji, List.set_cons_succ]
    have hlt2 : j - i - 1 < (l.drop (i+1)).length := by
      rw [List.length_drop]; omega
    rw [List.set_eq_take_cons_drop a hlt2]
    have harith : j - i - 1 + 1 = j - i := by omega
    rw [harith]
  rw [hswapped]
  conv_rhs => rw [hl]
  refine (List.perm_append_left_iff _).2 ?_
  exact (List.Perm.cons b List.perm_middle).trans
    ((List.Perm.swap a b _).trans (List.Perm.cons a List.perm_middle.symm))

/-! ## Selection sort: correctness lemmas -/

/-- Specification of the inner loop of `selection_sort`: starting the scan at
`j` with current candidate `min`, it succeeds, performs exactly `n - j`
comparisons, and returns an index of a least element among position `min` and
the positions `j, ..., n-1`. -/
theorem selMinLoop_spec (arr : List Int) (n : Nat) (hn : n = arr.length)
    (j min : Nat) (hj : j ≤ n) (hmin : min < n) :
    ∃ m c, selMinLoop arr n j min = some (m, c) ∧ c = n - j ∧ m < n ∧
      (m = min ∨ j ≤ m) ∧
      arr.getD m 0 ≤ arr.getD min 0 ∧
      ∀ k, j ≤ k → k < n → arr.getD m 0 ≤ arr.getD k 0 := by
  rcases Nat.lt_or_ge j n with hlt | hge
  · have hjl : j < arr.length := hn ▸ hlt
    have hminl : min < arr.length := hn ▸ hmin
    have ha : arr[j]? = some (arr.getD j 0) := getD_of_getElem arr j hjl
    have hb : arr[min]? = some (arr.getD min 0) := getD_of_getElem arr min hminl
    by_cases hcmp : arr.getD j 0 < arr.getD min 0
    · obtain ⟨m, c, heq, hc, hm, hdisj, hle, hall⟩ :=
        selMinLoop_spec arr n hn (j+1) j (by omega) hlt
      refine ⟨m, c + 1, ?_, by omega, hm, ?_, ?_, ?_⟩
      · rw [selMinLoop, if_pos hlt]
        simp only [ha, hb]
        rw [if_pos hcmp, heq]
      · rcases hdisj with h | h
        · right; omega
        · right; omega
      · exact le_trans hle (le_of_lt hcmp)
      · intro k hk hkn
        rcases Nat.eq_or_lt_of_le hk with rfl | hk2
        · exact hle
        · exact hall k (by omega) hkn
    · obtain ⟨m, c, heq, hc, hm, hdisj, hle, hall⟩ :=
        selMinLoop_spec arr n hn (j+1) min (by omega) hmin
      refine ⟨m, c + 1, ?_, by omega, hm, ?_, hle, ?_⟩
      · rw [selMinLoop, if_pos hlt]
        simp only [ha, hb]
        rw [if_neg hcmp, heq]
      · rcases hdisj with h | h
        · left; exact h
        · right; omega
      · intro k hk hkn
        rcases Nat.eq_or_lt_of_le hk with rfl | hk2
        · exact le_trans hle (by omega)
        · exact hall k (by omega) hkn
  · have hjn : j = n := by omega
    refine ⟨min, 0, ?_, by omega, hmin, Or.inl rfl, le_refl _, ?_⟩
    · rw [selMinLoop, if_neg (by omega)]
    · intro k hk hkn; omega
termination_by n - j

/-- Specification of one outer iteration of `selection_sort`: it succeeds,
makes exactly `n - (i+1)` comparisons and at most one swap (none when `i` is
the last index), only rearranges the suffix from position `i` on, and leaves
at position `i` a least element of that suffix. -/
theorem selStep_spec (arr : List Int) (n i : Nat) (hn : n = arr.length) (hi : i < n) :
    ∃ a2 c s, selStep arr n i = some (a2, c, s) ∧ c = n - (i+1) ∧ s ≤ 1 ∧
      a2.length = arr.length ∧
      a2.take i = arr.take i ∧
      (a2.drop i).Perm (arr.drop i) ∧
      (∀ x ∈ arr.drop i, a2.getD i 0 ≤ x) ∧
      (i + 1 = n → s = 0) := by
  obtain ⟨m, c, heq, hc, hm, hdisj, hle, hall⟩ :=
    selMinLoop_spec arr n hn (i+1) i (by omega) hi
  have Hmin : ∀ k, i ≤ k → k < n → arr.getD m 0 ≤ arr.getD k 0 := by
    intro k hk hkn
    rcases Nat.eq_or_lt_of_le hk with rfl | hk2
    · exact hle
    · exact hall k (by omega) hkn
  by_cases hmi : m = i
  · refine ⟨arr, c, 0, ?_, hc, by omega, rfl, rfl, List.Perm.refl _, ?_, fun _ => rfl⟩
    · rw [selStep]
      simp only [heq]
      rw [if_neg (by simp [hmi])]
    · intro x hx
      obtain ⟨k, hk, hkl, rfl⟩ := mem_drop_exists arr i x hx
      have hx2 := Hmin k hk (by omega)
      rwa [hmi] at hx2
  · have him : i + 1 ≤ m := hdisj.resolve_left hmi
    have hil : i < arr.length := by omega
    have hml : m < arr.length := by omega
    have ha : arr[i]? = some (arr.getD i 0) := getD_of_getElem arr i hil
    have hb : arr[m]? = some (arr.getD m 0) := getD_of_getElem arr m hml
    refine ⟨(arr.set i (arr.getD m 0)).set m (arr.getD i 0), c, 1, ?_, hc, by omega,
      by simp, ?_, ?_, ?_, ?_⟩
    · rw [selStep]
      simp only [heq]
      rw [if_pos hmi]
      simp only [ha, hb]
    · rw [List.set_take, List.set_take,
        List.set_eq_of_length_le (by simp only [List.length_set, List.length_take]; omega),
        List.set_eq_of_length_le (by simp only [List.length_set, List.length_take]; omega)]
    · rw [List.drop_set, List.drop_set]
      rw [if_neg (by omega), if_neg (by omega)]
      have h0 : (arr.drop i)[i - i]? = some (arr.getD i 0) := by
        rw [List.getElem?_drop]
        have : i + (i - i) = i := by omega
        rw [this]; exact ha
      have hmm2 : (arr.drop i)[m - i]? = some (arr.getD m 0) := by
        rw [List.getElem?_drop]
        have : i + (m - i) = m := by omega
        rw [this]; exact hb
      have h10 := swap_set_set_perm (by omega) h0 hmm2
      simpa using h10
    · intro x hx
      obtain ⟨k, hk, hkl, rfl⟩ := mem_drop_exists arr i x hx
      have hgi : ((arr.set i (arr.getD m 0)).set m (arr.getD i 0)).getD i 0 = arr.getD m 0 := by
        rw [List.getD_eq_getElem?_getD, List.getElem?_set_ne (by omega),
          List.getElem?_set_eq_of_lt _ (by simpa using hil), Option.getD_some]
      rw [hgi]
      exact Hmin k hk (by omega)
    · intro h; omega

/-- One outer iteration of `selection_sort` preserves the loop invariant:
from `SelInv arr i` it produces a permutation `a2` of `arr` with
`SelInv a2 (i+1)`. -/
theorem selStep_inv (arr : List Int) (n i : Nat) (hn : n = arr.length) (hi : i < n)
    (hinv : SelInv arr i) :
    ∃ a2 c s, selStep arr n i = some (a2, c, s) ∧ c = n - (i+1) ∧ s ≤ 1 ∧
      a2.length = arr.length ∧ a2.Perm arr ∧ SelInv a2 (i+1) ∧ (i + 1 = n → s = 0) := by
  obtain ⟨a2, c, s, heq, hc, hs, hlen, htake, hdropperm, hmin, hlast⟩ :=
    selStep_spec arr n i hn hi
  have hperm : a2.Perm arr := perm_of_take_drop i htake hdropperm
  have hia2 : i < a2.length := by omega
  have hhead : a2.drop i = a2.getD i 0 :: a2.drop (i+1) := drop_eq_getD_cons hia2
  have hv_mem : a2.getD i 0 ∈ arr.drop i := by
    have hm : a2.getD i 0 ∈ a2.drop i := by
      rw [hhead]; exact List.mem_cons_self _ _
    exact (hdropperm.mem_iff).1 hm
  have ht1 : a2.take (i+1) = arr.take i ++ [a2.getD i 0] := by
    rw [List.take_succ, ← htake]
    congr 1
    rw [getD_of_getElem a2 i hia2]
    rfl
  have hmemdrop : ∀ y ∈ a2.drop (i+1), y ∈ arr.drop i := by
    intro y hy
    have hy2 : y ∈ a2.drop i := by
      rw [hhead]; exact List.mem_cons_of_mem _ hy
    exact (hdropperm.mem_iff).1 hy2
  refine ⟨a2, c, s, heq, hc, hs, hlen, hperm, ⟨?_, ?_⟩, hlast⟩
  · rw [ht1]
    refine List.pairwise_append.2 ⟨hinv.1, List.pairwise_singleton _ _, ?_⟩
    intro x hx y hy
    rw [List.mem_singleton] at hy
    subst hy
    exact hinv.2 x hx _ hv_mem
  · intro x hx y hy
    rw [ht1] at hx
    have hy2 : y ∈ arr.drop i := hmemdrop y hy
    rcases List.mem_append.1 hx with hx1 | hx1
    · exact hinv.2 x hx1 y hy2
    · rw [List.mem_singleton] at hx1
      subst hx1
      exact hmin y hy2

/-- Full run of the outer loop of `selection_sort` from index `i` under the
loop invariant: it succeeds, returns a sorted permutation of its input,
performs exactly `(n-i)(n-i-1)/2` comparisons (stated doubling-free) and at
most `n-i-1` swaps. -/
theorem selOuter_spec (n : Nat) : ∀ (arr : List Int) (i : Nat), n = arr.length →
    SelInv arr i →
    ∃ r c s, selOuter arr n i = some (r, c, s) ∧ r.Perm arr ∧
      List.Sorted (· ≤ ·) r ∧ 2 * c = (n - i) * (n - i - 1) ∧ s ≤ n - i - 1 := by
  intro arr i hn hinv
  rcases Nat.lt_or_ge i n with hi | hi
  · obtain ⟨a2, c1, s1, heq, hc1, hs1, hlen, hperm, hinv2, hlast⟩ :=
      selStep_inv arr n i hn hi hinv
    obtain ⟨r, c2, s2, heq2, hperm2, hsort, hc2, hs2⟩ :=
      selOuter_spec n a2 (i+1) (by omega) hinv2
    refine ⟨r, c1 + c2, s1 + s2, ?_, hperm2.trans hperm, hsort, ?_, ?_⟩
    · rw [selOuter, if_pos hi]
      simp only [heq, heq2]
    · rcases Nat.eq_zero_or_pos (n - (i+1)) with h0 | hpos
      · have h9 : 2 * c2 = 0 := by
          rw [h0] at hc2
          simpa using hc2
        have hni : n - i = 1 := by omega
        rw [hni]
        omega
      · obtain ⟨e, he⟩ : ∃ e, n - (i+1) = e + 1 := ⟨n - (i+1) - 1, by omega⟩
        have hd : n - i = e + 2 := by omega
        have hd2 : n - i - 1 = e + 1 := by omega
        rw [hd2, hd]
        rw [he] at hc2 hc1
        have hc2b : 2 * c2 = (e + 1) * e := by
          have harith : e + 1 - 1 = e := by omega
          rwa [harith] at hc2
        have hgoal : (e + 2) * (e + 1) = (e + 1) * e + 2 * (e + 1) := by ring
        rw [hgoal, ← hc2b, hc1]
        ring
    · rcases Nat.eq_or_lt_of_le (Nat.succ_le_of_lt hi) with heqn | hlt2
      · have hz := hlast heqn
        omega
      · omega
  · refine ⟨arr, 0, 0, ?_, List.Perm.refl _, ?_, ?_, by omega⟩
    · rw [selOuter, if_neg (by omega)]
    · have htk : arr.take i = arr := List.take_of_length_le (by omega)
      rw [← htk]
      exact hinv.1
    · have hni : n - i = 0 := by omega
      rw [hni]
termination_by arr i hn hinv => n - i

/-! ## More getD-level helpers -/

/-- Reading with `getD` after writing at the same position. -/
theorem getD_set_self {l : List Int} {i : Nat} {a : Int} (h : i < l.length) :
    (l.set i a).getD i 0 = a := by
  rw [List.getD_eq_getElem?_getD, List.getElem?_set_eq_of_lt a h, Option.getD_some]

/-- Reading with `getD` after writing at a different position. -/
theorem getD_set_ne {l : List Int} {i j : Nat} {a : Int} (h : i ≠ j) :
    (l.set i a).getD j 0 = l.getD j 0 := by
  rw [List.getD_eq_getElem?_getD, List.getElem?_set_ne h, ← List.getD_eq_getElem?_getD]

/-- Reading with `getD` through `drop`. -/
theorem getD_drop (l : List Int) (i k : Nat) :
    (l.drop i).getD k 0 = l.getD (i + k) 0 := by
  rw [List.getD_eq_getElem?_getD, List.getElem?_drop, ← List.getD_eq_getElem?_getD]

/-- An in-bounds element below the cut is a member of the prefix. -/
theorem getD_mem_take {l : List Int} {k n : Nat} (h1 : k < n) (h2 : k < l.length) :
    l.getD k 0 ∈ l.take n := by
  rw [List.mem_take_iff_getElem]
  refine ⟨k, by omega, ?_⟩
  simp [List.getD_eq_getElem?_getD, List.getElem?_eq_getElem h2]

/-- An in-bounds element past the cut is a member of the suffix. -/
theorem getD_mem_drop {l : List Int} {i k : Nat} (h1 : i ≤ k) (h2 : k < l.length) :
    l.getD k 0 ∈ l.drop i := by
  rw [List.mem_iff_getElem?]
  refine ⟨k - i, ?_⟩
  rw [List.getElem?_drop]
  have harith : i + (k - i) = k := by omega
  rw [harith]
  exact getD_of_getElem l k h2

/-- Sortedness of an integer list is the same as the pointwise comparison of
adjacent positions. -/
theorem sorted_iff_pointwise {l : List Int} :
    List.Sorted (· ≤ ·) l ↔ ∀ m, m + 1 < l.length → l.getD m 0 ≤ l.getD (m+1) 0 := by
  constructor
  · intro h m hm
    have hc := List.chain'_iff_get.1 (List.chain'_iff_pairwise.2 h) m (by omega)
    have e1 : l.get ⟨m, by omega⟩ = l.getD m 0 := by
      simp [List.getD_eq_getElem?_getD, List.getElem?_eq_getElem (by omega : m < l.length)]
    have e2 : l.get ⟨m + 1, by omega⟩ = l.getD (m+1) 0 := by
      simp [List.getD_eq_getElem?_getD, List.getElem?_eq_getElem hm]
    rwa [e1, e2] at hc
  · intro h
    refine List.chain'_iff_pairwise.1 (List.chain'_iff_get.2 ?_)
    intro m hm
    have hp := h m (by omega)
    have e1 : l.get ⟨m, by omega⟩ = l.getD m 0 := by
      simp [List.getD_eq_getElem?_getD, List.getElem?_eq_getElem (by omega : m < l.length)]
    have e2 : l.get ⟨m + 1, by omega⟩ = l.getD (m+1) 0 := by
      simp [List.getD_eq_getElem?_getD, List.getElem?_eq_getElem (by omega : m + 1 < l.length)]
    rw [e1, e2]
    exact hp

/-! ## Bubble sort: correctness lemmas -/

/-- A pass of `bubble_sort` over an already pointwise-sorted range compares
but never swaps: the array, the flag and the swap count come out unchanged. -/
theorem bubblePass_sorted (arr : List Int) (ed : Nat) (hed : ed < arr.length) :
    ∀ i sw s, (∀ k, i ≤ k → k + 1 ≤ ed → arr.getD k 0 ≤ arr.getD (k+1) 0) →
    bubblePass arr ed i sw s = some (arr, sw, s) := by
  intro i sw s hsorted
  rcases Nat.lt_or_ge i ed with hlt | hge
  · have hil : i < arr.length := by omega
    have hi1l : i + 1 < arr.length := by omega
    have ha : arr[i]? = some (arr.getD i 0) := getD_of_getElem arr i hil
    have hb : arr[i+1]? = some (arr.getD (i+1) 0) := getD_of_getElem arr (i+1) hi1l
    have hcmp : ¬ arr.getD i 0 > arr.getD (i+1) 0 := by
      have := hsorted i (le_refl i) (by omega)
      omega
    rw [bubblePass, if_pos hlt]
    simp only [ha, hb]
    rw [if_neg hcmp]
    exact bubblePass_sorted arr ed hed (i+1) sw s (fun k hk hk2 => hsorted k (by omega) hk2)
  · rw [bubblePass, if_neg (by omega)]
termination_by i => ed - i

/-- Main specification of a pass of `bubble_sort` starting at `i`, under the
running invariant that position `i` currently holds a maximum of the first
`i+1` positions.  The pass succeeds, permutes only the window `0 .. ed`,
leaves a maximum of the window at position `ed`, and can only report
`swapped = false` if it changed nothing, in which case the scanned range was
already pointwise sorted. -/
theorem bubblePass_spec (ed : Nat) : ∀ (arr : List Int), ed < arr.length →
    ∀ i sw s, i ≤ ed →
    (∀ k, k ≤ i → arr.getD k 0 ≤ arr.getD i 0) →
    ∃ a2 sw2 s2, bubblePass arr ed i sw s = some (a2, sw2, s2) ∧
      a2.length = arr.length ∧
      a2.Perm arr ∧
      (a2.take (ed+1)).Perm (arr.take (ed+1)) ∧
      a2.drop (ed+1) = arr.drop (ed+1) ∧
      (∀ k, k ≤ ed → a2.getD k 0 ≤ a2.getD ed 0) ∧
      (sw2 = false → sw = false ∧ a2 = arr ∧
        ∀ k, i ≤ k → k + 1 ≤ ed → arr.getD k 0 ≤ arr.getD (k+1) 0) := by
  intro arr hed i sw s hi hmax
  rcases Nat.lt_or_ge i ed with hlt | hge
  · have hil : i < arr.length := by omega
    have hi1l : i + 1 < arr.length := by omega
    have ha : arr[i]? = some (arr.getD i 0) := getD_of_getElem arr i hil
    have hb : arr[i+1]? = some (arr.getD (i+1) 0) := getD_of_getElem arr (i+1) hi1l
    by_cases hcmp : arr.getD i 0 > arr.getD (i+1) 0
    · -- swap branch
      have hperm2 : ((arr.set i (arr.getD (i+1) 0)).set (i+1) (arr.getD i 0)).Perm arr :=
        swap_set_set_perm (by omega) ha hb
      have hlen2 : ((arr.set i (arr.getD (i+1) 0)).set (i+1) (arr.getD i 0)).length
          = arr.length := by simp
      have hwin2 : (((arr.set i (arr.getD (i+1) 0)).set (i+1) (arr.getD i 0)).take (ed+1)).Perm
          (arr.take (ed+1)) := by
        rw [List.set_take, List.set_take]
        refine swap_set_set_perm (by omega) ?_ ?_
        · rw [List.getElem?_take]
          rw [if_pos (by omega)]
          exact ha
        · rw [List.getElem?_take]
          rw [if_pos (by omega)]
          exact hb
      have hdrop2 : ((arr.set i (arr.getD (i+1) 0)).set (i+1) (arr.getD i 0)).drop (ed+1)
          = arr.drop (ed+1) := by
        rw [List.drop_set, List.drop_set, if_pos (by omega), if_pos (by omega)]
      have hmax2 : ∀ k, k ≤ i + 1 →
          ((arr.set i (arr.getD (i+1) 0)).set (i+1) (arr.getD i 0)).getD k 0 ≤
          ((arr.set i (arr.getD (i+1) 0)).set (i+1) (arr.getD i 0)).getD (i+1) 0 := by
        have hgt : ((arr.set i (arr.getD (i+1) 0)).set (i+1) (arr.getD i 0)).getD (i+1) 0
            = arr.getD i 0 := getD_set_self (by simpa using hi1l)
        intro k hk
        rw [hgt]
        rcases Nat.lt_or_ge k (i+1) with hk2 | hk2
        · rcases Nat.lt_or_ge k i with hk3 | hk3
          · rw [getD_set_ne (by omega), getD_set_ne (by omega)]
            exact hmax k (by omega)
          · have hki : k = i := by omega
            subst hki
            rw [getD_set_ne (by omega), getD_set_self hil]
            omega
        · have hki : k = i + 1 := by omega
          subst hki
          rw [hgt]
      obtain ⟨a2, sw2, s2, heq, hlen3, hperm3, hwin3, hdrop3, hmax3, hfalse3⟩ :=
        bubblePass_spec ed ((arr.set i (arr.getD (i+1) 0)).set (i+1) (arr.getD i 0))
          (by omega) (i+1) true (s+1) (by omega) hmax2
      refine ⟨a2, sw2, s2, ?_, by omega, hperm3.trans hperm2, hwin3.trans hwin2,
        hdrop3.trans hdrop2, hmax3, ?_⟩
      · rw [bubblePass, if_pos hlt]
        simp only [ha, hb]
        rw [if_pos hcmp]
        exact heq
      · intro hf
        obtain ⟨hcontra, _, _⟩ := hfalse3 hf
        exact absurd hcontra (by simp)
    · -- no-swap branch
      have hmax2 : ∀ k, k ≤ i + 1 → arr.getD k 0 ≤ arr.getD (i+1) 0 := by
        intro k hk
        rcases Nat.lt_or_ge k (i+1) with hk2 | hk2
        · exact le_trans (hmax k (by omega)) (by omega)
        · have hki : k = i + 1 := by omega
          subst hki
          exact le_refl _
      obtain ⟨a2, sw2, s2, heq, hlen3, hperm3, hwin3, hdrop3, hmax3, hfalse3⟩ :=
        bubblePass_spec ed arr hed (i+1) sw s (by omega) hmax2
      refine ⟨a2, sw2, s2, ?_, hlen3, hperm3, hwin3, hdrop3, hmax3, ?_⟩
      · rw [bubblePass, if_pos hlt]
        simp only [ha, hb]
        rw [if_neg hcmp]
        exact heq
      · intro hf
        obtain ⟨hsw, ha2, hwindow⟩ := hfalse3 hf
        refine ⟨hsw, ha2, ?_⟩
        intro k hk hk2
        rcases Nat.eq_or_lt_of_le hk with rfl | hk3
        · omega
        · exact hwindow k (by omega) hk2
  · have hie : i = ed := by omega
    subst hie
    refine ⟨arr, sw, s, ?_, rfl, List.Perm.refl _, List.Perm.refl _, rfl, ?_, ?_⟩
    · rw [bubblePass, if_neg (by omega)]
    · intro k hk
      rcases Nat.eq_or_lt_of_le hk with rfl | hk2
      · exact le_refl _
      · exact hmax k (by omega)
    · intro hf
      exact ⟨hf, rfl, fun k hk hk2 => by omega⟩
termination_by arr hed i => ed - i

/-- An in-bounds `getElem` is `getD`. -/
theorem getElem_eq_getD {l : List Int} {k : Nat} (h : k < l.length) :
    l[k] = l.getD k 0 := by
  have h2 := getD_of_getElem l k h
  rw [List.getElem?_eq_getElem h] at h2
  exact Option.some_inj.1 h2

/-- The do-while loop of `bubble_sort`, started with bound `ed` in a state
whose suffix past `ed` is already sorted and dominates the prefix, returns a
sorted permutation of its input. -/
theorem bubbleLoop_spec (ed : Nat) : ∀ (arr : List Int), ed < arr.length →
    List.Sorted (· ≤ ·) (arr.drop (ed+1)) →
    (∀ x ∈ arr.take (ed+1), ∀ y ∈ arr.drop (ed+1), x ≤ y) →
    ∃ r p s, bubbleLoop arr ed = some (r, p, s) ∧ r.Perm arr ∧
      List.Sorted (· ≤ ·) r := by
  intro arr hed hsuf hcross
  obtain ⟨a2, sw2, s2, heq, hlen, hperm, hwin, hdrop, hmax, hfalse⟩ :=
    bubblePass_spec ed arr hed 0 false 0 (by omega)
      (fun k hk => by
        have hk0 : k = 0 := by omega
        subst hk0
        exact le_refl _)
  cases sw2 with
  | false =>
    obtain ⟨_, ha2, hwindow⟩ := hfalse rfl
    refine ⟨arr, 1, s2, ?_, List.Perm.refl _, ?_⟩
    · rw [bubbleLoop]
      simp only [heq]
      rw [if_neg (by simp), ha2]
    · refine sorted_iff_pointwise.2 ?_
      intro m hm
      rcases Nat.lt_or_ge m ed with hmed | hmed
      · exact hwindow m (by omega) (by omega)
      · rcases Nat.eq_or_lt_of_le hmed with rfl | hmed2
        · refine hcross _ (getD_mem_take (by omega) (by omega)) _
            (getD_mem_drop (le_refl _) (by omega))
        · have hp := sorted_iff_pointwise.1 hsuf (m - ed - 1)
          rw [getD_drop, getD_drop] at hp
          have e1 : ed + 1 + (m - ed - 1) = m := by omega
          have e2 : ed + 1 + (m - ed - 1 + 1) = m + 1 := by omega
          rw [e1, e2] at hp
          refine hp ?_
          rw [List.length_drop]
          omega
  | true =>
    cases ed with
    | zero =>
      rw [bubblePass, if_neg (by omega)] at heq
      simp at heq
    | succ e =>
      have hlen2 : e < a2.length := by omega
      have he1 : e + 1 < a2.length := by omega
      have hda2 : a2.drop (e+1) = a2.getD (e+1) 0 :: arr.drop (e+2) := by
        rw [drop_eq_getD_cons he1, ← hdrop]
      have hheadmem : a2.getD (e+1) 0 ∈ arr.take (e+2) := by
        refine (hwin.mem_iff).1 ?_
        exact getD_mem_take (by omega) he1
      have hsuf2 : List.Sorted (· ≤ ·) (a2.drop (e+1)) := by
        rw [hda2]
        refine List.sorted_cons.2 ⟨?_, hsuf⟩
        intro y hy
        exact hcross _ hheadmem y hy
      have hcross2 : ∀ x ∈ a2.take (e+1), ∀ y ∈ a2.drop (e+1), x ≤ y := by
        intro x hx y hy
        rw [hda2] at hy
        obtain ⟨k, hk, rfl⟩ := List.mem_take_iff_getElem.1 hx
        rw [getElem_eq_getD (by omega)]
        rcases List.mem_cons.1 hy with rfl | hy2
        · exact hmax k (by omega)
        · have hxmem : a2.getD k 0 ∈ arr.take (e+2) := by
            refine (hwin.mem_iff).1 ?_
            exact getD_mem_take (by omega) (by omega)
          exact hcross _ hxmem y hy2
      obtain ⟨r, p, s3, heq2, hperm2, hsort2⟩ := bubbleLoop_spec e a2 hlen2 hsuf2 hcross2
      refine ⟨r, p + 1, s2 + s3, ?_, hperm2.trans hperm, hsort2⟩
      rw [bubbleLoop]
      simp only [heq]
      rw [if_pos trivial]
      simp only [heq2]
termination_by ed

/-- On a nonempty array, `bubble_sort` runs to completion and returns a
sorted permutation of its input. -/
theorem bubbleRun_total_sorted (arr : List Int) (hne : arr ≠ []) :
    ∃ r p s, bubbleRun arr = some (r, p, s) ∧ r.Perm arr ∧
      List.Sorted (· ≤ ·) r := by
  have hpos : 0 < arr.length := List.length_pos.2 hne
  obtain ⟨m, hm⟩ : ∃ m, arr.length = m + 1 := ⟨arr.length - 1, by omega⟩
  have hdropnil : arr.drop (m+1) = [] := List.drop_eq_nil_of_le (by omega)
  rw [bubbleRun, hm]
  simp only [sizeSub1]
  refine bubbleLoop_spec m arr (by omega) ?_ ?_
  · rw [hdropnil]
    exact List.sorted_nil
  · intro x hx y hy
    rw [hdropnil] at hy
    simp at hy

/-- A run of `bubble_sort` on a nonempty array whose adjacent pairs are
already in order performs exactly one pass and no swap, and returns the array
unchanged. -/
theorem bubbleRun_sorted_input (arr : List Int) (hne : arr ≠ [])
    (hsorted : List.Chain' (· ≤ ·) arr) :
    bubbleRun arr = some (arr, 1, 0) := by
  have hpos : 0 < arr.length := List.length_pos.2 hne
  obtain ⟨m, hm⟩ : ∃ m, arr.length = m + 1 := ⟨arr.length - 1, by omega⟩
  have hpoint := sorted_iff_pointwise.1 (List.chain'_iff_pairwise.1 hsorted)
  have hpass := bubblePass_sorted arr m (by omega) 0 false 0
    (fun k hk hk2 => hpoint k (by omega))
  rw [bubbleRun, hm]
  simp only [sizeSub1]
  rw [bubbleLoop]
  simp only [hpass]
  rw [if_neg (by simp)]

/-! ## Insertion sort: correctness lemmas -/

/-- The shifting loop preserves the length of the array. -/
theorem insertLoop_length {α : Type} (gt : α → α → Bool) :
    ∀ (j : Nat) (arr : List α) (temp : α) (arr2 : List α) (j2 : Nat),
    insertLoop gt arr temp j = some (arr2, j2) → arr2.length = arr.length := by
  intro j arr temp arr2 j2 heq
  rw [insertLoop] at heq
  cases ha : arr[j]? with
  | none => rw [ha] at heq; exact absurd heq (by simp)
  | some v =>
    simp only [ha] at heq
    by_cases hgt : gt v temp = true
    · rw [if_pos hgt] at heq
      by_cases hj1 : j + 1 < arr.length
      · rw [if_pos hj1] at heq
        cases j with
        | zero => exact absurd heq (by simp)
        | succ k =>
          have := insertLoop_length gt k (arr.set (k+1+1) v) temp arr2 j2 heq
          simpa using this
      · rw [if_neg hj1] at heq
        exact absurd heq (by simp)
    · rw [if_neg hgt] at heq
      have h2 : arr = arr2 ∧ j = j2 := by
        have := Option.some_inj.1 heq
        exact ⟨congrArg Prod.fst this, congrArg Prod.snd this⟩
      rw [← h2.1]

/-- Full characterisation of the shifting loop
`while (j >= 0 && arr[j] > temp)` on success: it exits at an index `j2 ≤ j`
whose element is not greater than `temp`, every element strictly between
`j2` and the starting point (inclusive) is greater than `temp`, and the
result is the input with the block `j2+1 .. j` copied one slot to the right
(position `j2+1` still holding its old value, to be overwritten by the
caller). -/
theorem insertLoop_spec {α : Type} (gt : α → α → Bool) :
    ∀ (j : Nat) (arr : List α) (temp : α) (arr2 : List α) (j2 : Nat),
    insertLoop gt arr temp j = some (arr2, j2) →
    j2 ≤ j ∧ j2 < arr.length ∧
      (∃ v2, arr[j2]? = some v2 ∧ gt v2 temp = false) ∧
      (∀ k, j2 < k → k ≤ j → ∃ v, arr[k]? = some v ∧ gt v temp = true) ∧
      arr2 = arr.take (j2+2) ++ (arr.drop (j2+1)).take (j - j2) ++ arr.drop (j+2) := by
  intro j arr temp arr2 j2 heq
  rw [insertLoop] at heq
  cases ha : arr[j]? with
  | none => rw [ha] at heq; exact absurd heq (by simp)
  | some v =>
    simp only [ha] at heq
    by_cases hgt : gt v temp = true
    · rw [if_pos hgt] at heq
      by_cases hj1 : j + 1 < arr.length
      · rw [if_pos hj1] at heq
        cases j with
        | zero => exact absurd heq (by simp)
        | succ k =>
          obtain ⟨hj2, hj2len, ⟨v2, hv2, hv2f⟩, hmid, hsurg⟩ :=
            insertLoop_spec gt k (arr.set (k+1+1) v) temp arr2 j2 heq
          have hlen : (arr.set (k+1+1) v).length = arr.length := by simp
          have hj2len2 : j2 < arr.length := by omega
          refine ⟨by omega, hj2len2, ⟨v2, ?_, hv2f⟩, ?_, ?_⟩
          · rw [← hv2, List.getElem?_set_ne (by omega)]
          · intro m hm1 hm2
            rcases Nat.eq_or_lt_of_le hm2 with rfl | hm3
            · exact ⟨v, ha, hgt⟩
            · obtain ⟨w, hw, hwt⟩ := hmid m hm1 (by omega)
              refine ⟨w, ?_, hwt⟩
              rw [← hw, List.getElem?_set_ne (by omega)]
          · -- translate the surgery along the write at position k+2
            have e1 : (arr.set (k+1+1) v).take (j2+2) = arr.take (j2+2) := by
              rw [List.set_take, List.set_eq_of_length_le]
              simp only [List.length_take]
              omega
            have e2 : ((arr.set (k+1+1) v).drop (j2+1)).take (k - j2)
                = (arr.drop (j2+1)).take (k - j2) := by
              rw [List.drop_set, if_neg (by omega), List.set_take,
                List.set_eq_of_length_le]
              simp only [List.length_take]
              omega
            have e3 : (arr.set (k+1+1) v).drop (k+1+1) = v :: arr.drop (k+1+2) := by
              rw [List.drop_set, if_neg (by omega)]
              have harith : k + 1 + 1 - (k + 1 + 1) = 0 := by omega
              rw [harith]
              have hcons : arr.drop (k+1+1) = arr[k+1+1] :: arr.drop (k+1+2) :=
                List.drop_eq_getElem_cons hj1
              rw [hcons]
              rfl
            have e4 : (arr.drop (j2+1)).take (k + 1 - j2)
                = (arr.drop (j2+1)).take (k - j2) ++ [v] := by
              have harith : k + 1 - j2 = (k - j2) + 1 := by omega
              rw [harith, List.take_succ]
              congr 1
              rw [List.getElem?_drop]
              have harith2 : j2 + 1 + (k - j2) = k + 1 := by omega
              rw [harith2, ha]
              rfl
            rw [hsurg, e1, e2, e3, e4]
            simp only [List.append_assoc, List.cons_append, List.nil_append,
              List.singleton_append]
      · rw [if_neg hj1] at heq
        exact absurd heq (by simp)
    · rw [if_neg hgt] at heq
      have h3 := Option.some_inj.1 heq
      have ha2 : arr2 = arr := (congrArg Prod.fst h3).symm
      have hj2 : j2 = j := (congrArg Prod.snd h3).symm
      have hjlen : j < arr.length := (List.getElem?_eq_some.1 ha).1
      subst ha2
      rw [hj2]
      refine ⟨le_refl _, hjlen, ⟨v, ha, by simpa using hgt⟩, ?_, ?_⟩
      · intro m hm1 hm2; omega
      · have harith : j - j = 0 := by omega
        rw [harith]
        simp [List.take_append_drop]

/-- One iteration of the outer loop of `insertion_sort`, decomposed: with
`temp = arr[i+1]` and a successful shifting loop exiting at `j2`, the array
before the iteration splits as `prefix ++ (block ++ temp :: suffix)` and the
array after the final write `arr[j2+1] = temp` is
`prefix ++ (temp :: block ++ suffix)`, where every element of the shifted
block is greater than `temp` and the element just before the insertion point
is not. -/
theorem insertStep_decomp {α : Type} (gt : α → α → Bool) (arr : List α) (i : Nat)
    (temp : α) (htemp : arr[i+1]? = some temp) (arr2 : List α) (j2 : Nat)
    (hloop : insertLoop gt arr temp i = some (arr2, j2)) :
    j2 ≤ i ∧ j2 + 1 < arr2.length ∧
      (∃ v2, arr[j2]? = some v2 ∧ gt v2 temp = false) ∧
      (∀ x ∈ (arr.drop (j2+1)).take (i - j2), gt x temp = true) ∧
      arr2.set (j2+1) temp =
        arr.take (j2+1) ++ temp :: ((arr.drop (j2+1)).take (i - j2) ++ arr.drop (i+2)) ∧
      arr = arr.take (j2+1) ++ ((arr.drop (j2+1)).take (i - j2) ++ temp :: arr.drop (i+2)) := by
  have hi1 : i + 1 < arr.length := (List.getElem?_eq_some.1 htemp).1
  obtain ⟨hj2i, hj2len, hexit, hmid, hsurg⟩ := insertLoop_spec gt i arr temp arr2 j2 hloop
  have hlen2 : arr2.length = arr.length := insertLoop_length gt i arr temp arr2 j2 hloop
  refine ⟨hj2i, by omega, hexit, ?_, ?_, ?_⟩
  · intro x hx
    obtain ⟨m, hm, rfl⟩ := List.mem_take_iff_getElem.1 hx
    have hmlt : m < i - j2 := by
      have := hm
      simp only [List.length_take, List.length_drop] at this
      omega
    obtain ⟨v, hv, hvt⟩ := hmid (j2 + 1 + m) (by omega) (by omega)
    have hx2 : (arr.drop (j2+1))[m] = v := by
      rw [List.getElem_drop]
      exact (List.getElem?_eq_some.1 hv).2
    rw [hx2]
    exact hvt
  · have hcond : j2 + 1 < (arr.take (j2+2)).length := by
      simp only [List.length_take]
      omega
    have hnil : (arr.take (j2+2)).drop (j2+1+1) = [] :=
      List.drop_eq_nil_of_le (by simp only [List.length_take]; omega)
    rw [hsurg, List.append_assoc, List.set_append, if_pos hcond,
      List.set_eq_take_cons_drop temp hcond, List.take_take, hnil]
    have harith : min (j2+1) (j2+2) = j2 + 1 := by omega
    rw [harith]
    simp only [List.append_assoc, List.cons_append, List.nil_append,
      List.singleton_append]
  · conv_lhs => rw [← List.take_append_drop (j2+1) arr]
    congr 1
    conv_lhs => rw [← List.take_append_drop (i - j2) (arr.drop (j2+1))]
    congr 1
    rw [List.drop_drop]
    have harith : j2 + 1 + (i - j2) = i + 1 := by omega
    rw [harith]
    rw [List.drop_eq_getElem_cons hi1]
    congr 1
    exact (List.getElem?_eq_some.1 htemp).2

/-- Whenever the outer loop of `insertion_sort` (started at any index) runs
to completion, its result is a permutation of its input: each iteration only
moves the element `arr[i+1]` across the shifted block. -/
theorem insertOuter_perm {α : Type} (gt : α → α → Bool) (n : Nat) :
    ∀ (i : Nat) (arr : List α) (r : List α),
    insertOuter gt arr n i = some r → r.Perm arr := by
  intro i arr r heq
  rw [insertOuter] at heq
  by_cases hi : i < sizeSub1 n
  · rw [if_pos hi] at heq
    cases htemp : arr[i+1]? with
    | none => rw [htemp] at heq; exact absurd heq (by simp)
    | some temp =>
      simp only [htemp] at heq
      cases hloop : insertLoop gt arr temp i with
      | none => rw [hloop] at heq; exact absurd heq (by simp)
      | some pr =>
        obtain ⟨arr2, j2⟩ := pr
        simp only [hloop] at heq
        by_cases hj : j2 + 1 < arr2.length
        · rw [if_pos hj] at heq
          obtain ⟨hj2i, hjlt, hexit, hmidmem, hset, hdecomp⟩ :=
            insertStep_decomp gt arr i temp htemp arr2 j2 hloop
          have hstep : (arr2.set (j2+1) temp).Perm arr := by
            rw [hset]
            conv_rhs => rw [hdecomp]
            exact (List.perm_append_left_iff _).2 List.perm_middle.symm
          exact (insertOuter_perm gt n (i+1) (arr2.set (j2+1) temp) r heq).trans hstep
        · rw [if_neg hj] at heq
          exact absurd heq (by simp)
  · rw [if_neg hi] at heq
    have h2 : arr = r := Option.some_inj.1 heq
    rw [← h2]
termination_by i => sizeSub1 n - i

/-- Stability of the insertion algorithm, in key-tagged form: running the
outer loop on pairs compared by their first component only, the subsequence
of pairs carrying any fixed key is unchanged.  Shifting moves an element
only across elements with strictly greater keys, so equal keys never cross. -/
theorem insertOuter_filter (n : Nat) :
    ∀ (i : Nat) (l r : List (Int × Nat)),
    insertOuter (fun p q : Int × Nat => p.1 > q.1) l n i = some r →
    ∀ key : Int, r.filter (fun p => p.1 = key) = l.filter (fun p => p.1 = key) := by
  intro i l r heq key
  rw [insertOuter] at heq
  by_cases hi : i < sizeSub1 n
  · rw [if_pos hi] at heq
    cases htemp : l[i+1]? with
    | none => rw [htemp] at heq; exact absurd heq (by simp)
    | some temp =>
      simp only [htemp] at heq
      cases hloop : insertLoop (fun p q : Int × Nat => p.1 > q.1) l temp i with
      | none => rw [hloop] at heq; exact absurd heq (by simp)
      | some pr =>
        obtain ⟨arr2, j2⟩ := pr
        simp only [hloop] at heq
        by_cases hj : j2 + 1 < arr2.length
        · rw [if_pos hj] at heq
          obtain ⟨hj2i, hjlt, hexit, hmidmem, hset, hdecomp⟩ :=
            insertStep_decomp (fun p q : Int × Nat => p.1 > q.1) l i temp htemp arr2 j2 hloop
          have hstep : (arr2.set (j2+1) temp).filter (fun p => p.1 = key)
              = l.filter (fun p => p.1 = key) := by
            rw [hset]
            conv_rhs => rw [hdecomp]
            by_cases hkey : temp.1 = key
            · have hmidnil : ((l.drop (j2+1)).take (i - j2)).filter
                  (fun p => p.1 = key) = [] := by
                rw [List.filter_eq_nil_iff]
                intro x hx
                have hgt := hmidmem x hx
                simp only [decide_eq_true_eq] at hgt
                simp only [decide_eq_true_eq]
                omega
              simp only [List.filter_append, List.filter_cons, hmidnil]
              rw [if_pos (by simpa using hkey)]
              simp
              rw [if_pos hkey]
            · simp only [List.filter_append, List.filter_cons]
              rw [if_neg (by simpa using hkey), if_neg (by simpa using hkey)]
          exact (insertOuter_filter n (i+1) (arr2.set (j2+1) temp) r heq key).trans hstep
        · rw [if_neg hj] at heq
          exact absurd heq (by simp)
  · rw [if_neg hi] at heq
    have h2 : l = r := Option.some_inj.1 heq
    rw [← h2]
termination_by i => sizeSub1 n - i

/-- Whenever the outer loop of `insertion_sort` runs to completion starting
from index `i` with the first `i+1` positions sorted, the final array is
sorted: each iteration inserts `arr[i+1]` into the sorted prefix at the
position found by the shifting loop. -/
theorem insertOuter_sorted (n : Nat) :
    ∀ (i : Nat) (arr r : List Int), n = arr.length →
    List.Sorted (· ≤ ·) (arr.take (i+1)) →
    insertOuter (fun a b : Int => a > b) arr n i = some r →
    List.Sorted (· ≤ ·) r := by
  intro i arr r hn hpre heq
  rw [insertOuter] at heq
  by_cases hi : i < sizeSub1 n
  · rw [if_pos hi] at heq
    cases htemp : arr[i+1]? with
    | none => rw [htemp] at heq; exact absurd heq (by simp)
    | some temp =>
      simp only [htemp] at heq
      cases hloop : insertLoop (fun a b : Int => a > b) arr temp i with
      | none => rw [hloop] at heq; exact absurd heq (by simp)
      | some pr =>
        obtain ⟨arr2, j2⟩ := pr
        simp only [hloop] at heq
        by_cases hj : j2 + 1 < arr2.length
        · rw [if_pos hj] at heq
          obtain ⟨hj2i, hjlt, ⟨v2, hv2some, hv2f⟩, hmidmem, hset, hdecomp⟩ :=
            insertStep_decomp _ arr i temp htemp arr2 j2 hloop
          have hi1 : i + 1 < arr.length := (List.getElem?_eq_some.1 htemp).1
          have hlen2 : arr2.length = arr.length :=
            insertLoop_length _ i arr temp arr2 j2 hloop
          have hAlen : (arr.take (j2+1)).length = j2 + 1 := by
            simp only [List.length_take]; omega
          have hmidlen : ((arr.drop (j2+1)).take (i - j2)).length = i - j2 := by
            simp only [List.length_take, List.length_drop]; omega
          have hP : arr.take (i+1) = arr.take (j2+1) ++ (arr.drop (j2+1)).take (i - j2) := by
            rw [← List.take_append_drop (j2+1) (arr.take (i+1)), List.take_take,
              List.drop_take]
            have e1 : min (j2+1) (i+1) = j2+1 := by omega
            have e2 : i + 1 - (j2+1) = i - j2 := by omega
            rw [e1, e2]
          rw [hP] at hpre
          have hsortA := (List.pairwise_append.1 hpre).1
          have hsortmid := (List.pairwise_append.1 hpre).2.1
          have hAmid := (List.pairwise_append.1 hpre).2.2
          have hv2le : v2 ≤ temp := by
            have h3 : ¬ v2 > temp := by simpa using hv2f
            omega
          have hA_split : arr.take (j2+1) = arr.take j2 ++ [v2] := by
            rw [List.take_succ, hv2some]
            rfl
          have hAle : ∀ x ∈ arr.take (j2+1), x ≤ temp := by
            intro x hx
            rw [hA_split] at hx hsortA
            rcases List.mem_append.1 hx with hx1 | hx1
            · have hxle := (List.pairwise_append.1 hsortA).2.2 x hx1 v2
                (List.mem_singleton.2 rfl)
              exact le_trans hxle hv2le
            · rw [List.mem_singleton.1 hx1]
              exact hv2le
          have hmidge : ∀ y ∈ (arr.drop (j2+1)).take (i - j2), temp ≤ y := by
            intro y hy
            have h4 := hmidmem y hy
            have h5 : temp < y := by simpa using h4
            exact le_of_lt h5
          have hprefix : List.Sorted (· ≤ ·) ((arr2.set (j2+1) temp).take (i+2)) := by
            rw [hset]
            have e3 : i + 2 = (arr.take (j2+1)).length + (i + 1 - j2) := by
              rw [hAlen]; omega
            rw [e3, List.take_append]
            have e4 : i + 1 - j2 = (i - j2) + 1 := by omega
            rw [e4, List.take_succ_cons]
            rw [List.take_left' hmidlen]
            refine List.pairwise_append.2 ⟨hsortA, ?_, ?_⟩
            · exact List.sorted_cons.2 ⟨hmidge, hsortmid⟩
            · intro x hx y hy
              rcases List.mem_cons.1 hy with rfl | hy2
              · exact hAle x hx
              · exact hAmid x hx y hy2
          have hn2 : n = (arr2.set (j2+1) temp).length := by
            rw [List.length_set, hlen2, ← hn]
          exact insertOuter_sorted n (i+1) (arr2.set (j2+1) temp) r hn2 hprefix heq
        · rw [if_neg hj] at heq
          exact absurd heq (by simp)
  · rw [if_neg hi] at heq
    have h2 : arr = r := Option.some_inj.1 heq
    rw [← h2]
    cases n with
    | zero =>
      have h3 : arr = [] := List.length_eq_zero.1 hn.symm
      rw [h3]
      exact List.sorted_nil
    | succ m =>
      have him : m ≤ i := by simpa [sizeSub1] using hi
      have htk : arr.take (i+1) = arr := List.take_of_length_le (by omega)
      rw [← htk]
      exact hpre
termination_by i arr r => sizeSub1 n - i

/-! ## Run-level helpers -/

/-- The full instrumented run of `selection_sort`: always succeeds, returns a
sorted permutation, makes `n(n-1)/2` comparisons (stated via the double) and
at most `n-1` swaps. -/
theorem selRun_spec (arr : List Int) :
    ∃ r c s, selRun arr = some (r, c, s) ∧ r.Perm arr ∧
      List.Sorted (· ≤ ·) r ∧ 2 * c = arr.length * (arr.length - 1) ∧
      s ≤ arr.length - 1 := by
  obtain ⟨r, c, s, heq, hperm, hsort, hc, hs⟩ :=
    selOuter_spec arr.length arr 0 rfl ⟨by simp, by simp⟩
  exact ⟨r, c, s, heq, hperm, hsort, by simpa using hc, by simpa using hs⟩

/-- A one-element prefix is sorted. -/
theorem sorted_take_one (l : List Int) : List.Sorted (· ≤ ·) (l.take 1) := by
  cases l with
  | nil => simp
  | cons a t => simp

/-- Evaluation of `bubble_sort` on the empty sequence: `end = size() - 1` wraps around to
`2^64 - 1` and the first pass immediately reads `arr[0]` out of bounds. -/
theorem bubble_sort_nil : bubble_sort ([] : List Int) = none := by
  simp [bubble_sort, bubbleRun, bubbleLoop, bubblePass, sizeSub1, USIZE]

/-! ## Claim theorems -/

/-- C1: for every input sequence, whenever any of the three sort operations
(`bubble_sort`, `selection_sort`, `insertion_sort`) runs to completion and
returns a result, every adjacent pair of the result satisfies
`s[i] <= s[i+1]`. -/
theorem sorts_sorted (arr r : List Int) :
    (bubble_sort arr = some r → List.Chain' (· ≤ ·) r) ∧
    (selection_sort arr = some r → List.Chain' (· ≤ ·) r) ∧
    (insertion_sort arr = some r → List.Chain' (· ≤ ·) r) := by
  refine ⟨?_, ?_, ?_⟩
  · intro h
    by_cases hne : arr = []
    · rw [hne, bubble_sort_nil] at h
      exact absurd h (by simp)
    · obtain ⟨r0, p, s, heq, hperm, hsort⟩ := bubbleRun_total_sorted arr hne
      rw [bubble_sort, heq] at h
      simp only [Option.map_some'] at h
      rw [← Option.some_inj.1 h]
      exact List.chain'_iff_pairwise.2 hsort
  · intro h
    obtain ⟨r0, c, s, heq, hperm, hsort, _, _⟩ := selRun_spec arr
    rw [selection_sort, heq] at h
    simp only [Option.map_some'] at h
    rw [← Option.some_inj.1 h]
    exact List.chain'_iff_pairwise.2 hsort
  · intro h
    rw [insertion_sort] at h
    exact List.chain'_iff_pairwise.2
      (insertOuter_sorted arr.length 0 arr r rfl (sorted_take_one arr) h)

/-- Witness for C1: evaluating the three sorts on a concrete input and
reading the sortedness of the result off the theorem. -/
theorem sorts_sorted_witness : List.Chain' (· ≤ ·) ([1, 2, 3] : List Int) :=
  (sorts_sorted [3, 1, 2] [1, 2, 3]).1
    (by simp [bubble_sort, bubbleRun, bubbleLoop, bubblePass, sizeSub1])

/-- C2: for every input sequence, whenever any of the three sort operations
returns a result, that result is a permutation of the input: no value is
created, destroyed or altered, elements are only repositioned. -/
theorem sorts_perm (arr r : List Int) :
    (bubble_sort arr = some r → r.Perm arr) ∧
    (selection_sort arr = some r → r.Perm arr) ∧
    (insertion_sort arr = some r → r.Perm arr) := by
  refine ⟨?_, ?_, ?_⟩
  · intro h
    by_cases hne : arr = []
    · rw [hne, bubble_sort_nil] at h
      exact absurd h (by simp)
    · obtain ⟨r0, p, s, heq, hperm, hsort⟩ := bubbleRun_total_sorted arr hne
      rw [bubble_sort, heq] at h
      simp only [Option.map_some'] at h
      rw [← Option.some_inj.1 h]
      exact hperm
  · intro h
    obtain ⟨r0, c, s, heq, hperm, hsort, _, _⟩ := selRun_spec arr
    rw [selection_sort, heq] at h
    simp only [Option.map_some'] at h
    rw [← Option.some_inj.1 h]
    exact hperm
  · intro h
    rw [insertion_sort] at h
    exact insertOuter_perm _ arr.length 0 arr r h

/-- Witness for C2: a concrete selection-sort run and the permutation fact
read off the theorem. -/
theorem sorts_perm_witness : ([1, 2, 5] : List Int).Perm [5, 2, 1] :=
  (sorts_perm [5, 2, 1] [1, 2, 5]).2.1
    (by simp [selection_sort, selRun, selOuter, selStep, selMinLoop])

/-- C3 (code bug): `insertion_sort` does go out of bounds.  On `[2, 1]` the
element 1 must move to position 0; after the shift at `j = 0` the `size_t`
decrement wraps `j` to `2^64 - 1` and the loop condition reads `arr[j]` far
out of bounds, which the embedding reports as `none`. -/
theorem insertion_oob_eval : insertion_sort ([2, 1] : List Int) = none := by
  simp [insertion_sort, insertOuter, insertLoop, sizeSub1]

/-- C4 (code bug): on length-1 inputs all three sorts return the input
unchanged, and `selection_sort` also handles the empty sequence; but
`bubble_sort` and `insertion_sort` on the empty sequence compute
`size() - 1 = 2^64 - 1` in unsigned arithmetic and immediately access the
sequence out of bounds instead of returning it unchanged. -/
theorem edge_cases_eval :
    bubble_sort ([] : List Int) = none ∧
    insertion_sort ([] : List Int) = none ∧
    selection_sort ([] : List Int) = some [] ∧
    bubble_sort ([7] : List Int) = some [7] ∧
    selection_sort ([7] : List Int) = some [7] ∧
    insertion_sort ([7] : List Int) = some [7] := by
  refine ⟨?_, ?_, ?_, ?_, ?_, ?_⟩ <;>
    simp [bubble_sort, bubbleRun, bubbleLoop, bubblePass, selection_sort, selRun,
      selOuter, selStep, selMinLoop, insertion_sort, insertOuter, insertLoop,
      sizeSub1, USIZE]

/-- C5 (code bug): on the spec scenario `[2, 2, 1]`, `bubble_sort` and
`selection_sort` produce `[1, 2, 2]` as specified, but `insertion_sort`
wraps `j` around while inserting the final 1 before position 0 and reads out
of bounds instead of producing `[1, 2, 2]`. -/
theorem scenario_eval :
    bubble_sort ([2, 2, 1] : List Int) = some [1, 2, 2] ∧
    selection_sort ([2, 2, 1] : List Int) = some [1, 2, 2] ∧
    insertion_sort ([2, 2, 1] : List Int) = none := by
  refine ⟨?_, ?_, ?_⟩ <;>
    simp [bubble_sort, bubbleRun, bubbleLoop, bubblePass, selection_sort, selRun,
      selOuter, selStep, selMinLoop, insertion_sort, insertOuter, insertLoop,
      sizeSub1, USIZE]

/-- C6: the insertion variant is stable.  Running the same algorithm on
key-tagged elements compared by key only, every completed run preserves the
subsequence of elements carrying any fixed key, because shifting only moves
the inserted element across elements with strictly greater keys. -/
theorem insertion_stable (l r : List (Int × Nat)) (h : insertionSortKeyed l = some r) :
    ∀ key : Int, r.filter (fun p => p.1 = key) = l.filter (fun p => p.1 = key) := by
  rw [insertionSortKeyed] at h
  exact insertOuter_filter l.length 0 l r h

/-- Witness for C6: a concrete keyed run in which an element jumps over a
greater key; the two elements with key 2 keep their original order. -/
theorem insertion_stable_witness :
    ([((0:Int),(0:Nat)), (1,2), (2,1), (2,3)]).filter (fun p => p.1 = 2)
      = ([((0:Int),(0:Nat)), (2,1), (1,2), (2,3)]).filter (fun p => p.1 = 2) :=
  insertion_stable [(0,0), (2,1), (1,2), (2,3)] [(0,0), (1,2), (2,1), (2,3)]
    (by simp [insertionSortKeyed, insertOuter, insertLoop, sizeSub1]) 2

/-- Counterexample for C7 as stated: `insertion_sort` does not run to
completion on every input.  On `[3, 2, 1]` the first insertion already moves
an element to position 0, wrapping `j` and reading out of bounds. -/
theorem insertion_term_counterexample : insertion_sort ([3, 2, 1] : List Int) = none := by
  simp [insertion_sort, insertOuter, insertLoop, sizeSub1]

/-- C7 (amended): `selection_sort` terminates and returns a result on every
finite input, and `bubble_sort` does so on every nonempty input; the
insertion variant is excluded by the counterexample (its inner loop exits
only through an out-of-bounds read on inputs that need an insertion before
position 0, and `bubble_sort` on the empty input underflows `size() - 1`). -/
theorem sel_bubble_total (arr : List Int) :
    (∃ r, selection_sort arr = some r) ∧
    (arr ≠ [] → ∃ r, bubble_sort arr = some r) := by
  constructor
  · obtain ⟨r, c, s, heq, _, _, _, _⟩ := selRun_spec arr
    refine ⟨r, ?_⟩
    rw [selection_sort, heq]
    rfl
  · intro hne
    obtain ⟨r, p, s, heq, _, _⟩ := bubbleRun_total_sorted arr hne
    refine ⟨r, ?_⟩
    rw [bubble_sort, heq]
    rfl

/-- Witness for C7 (amended): both conjuncts at the concrete input `[5, 4]`. -/
theorem sel_bubble_total_witness :
    (∃ r, selection_sort ([5, 4] : List Int) = some r) ∧
    (∃ r, bubble_sort ([5, 4] : List Int) = some r) :=
  ⟨(sel_bubble_total [5, 4]).1, (sel_bubble_total [5, 4]).2 (by simp)⟩

/-- Counterexample for C8 as stated: the empty sequence is (vacuously)
sorted, yet `bubble_sort` does not terminate after one clean pass on it; the
underflowing `end = size() - 1` makes the first pass read out of bounds. -/
theorem bubble_empty_counterexample :
    List.Chain' (· ≤ ·) ([] : List Int) ∧ bubbleRun ([] : List Int) = none :=
  ⟨List.chain'_nil, by simp [bubbleRun, bubbleLoop, bubblePass, sizeSub1, USIZE]⟩

/-- C8 (amended): on every nonempty input whose adjacent pairs are already in
order, `bubble_sort` performs zero swaps and terminates after exactly one
pass, returning the input unchanged: the first pass observes no swaps and no
further pass is made. -/
theorem bubble_sorted_one_pass (arr : List Int) (hne : arr ≠ [])
    (hsorted : List.Chain' (· ≤ ·) arr) :
    bubbleRun arr = some (arr, 1, 0) :=
  bubbleRun_sorted_input arr hne hsorted

/-- Witness for C8 (amended): the sorted input `[1, 2, 3]`. -/
theorem bubble_sorted_one_pass_witness :
    bubbleRun ([1, 2, 3] : List Int) = some ([1, 2, 3], 1, 0) :=
  bubble_sorted_one_pass [1, 2, 3] (by simp) (by norm_num [List.chain'_cons, List.chain'_singleton])

/-- C9: for every input of length `n`, `selection_sort` performs exactly
`n(n-1)/2` element comparisons regardless of the input order, and at most
`n-1` swaps. -/
theorem selection_counts (arr : List Int) :
    ∃ r c s, selRun arr = some (r, c, s) ∧
      c = arr.length * (arr.length - 1) / 2 ∧ s ≤ arr.length - 1 := by
  obtain ⟨r, c, s, heq, _, _, hc, hs⟩ := selRun_spec arr
  refine ⟨r, c, s, heq, ?_, hs⟩
  rw [← hc]
  omega

/-- C10: the loop invariant of `selection_sort`.  If before iteration `i`
the prefix of positions `0 .. i-1` is sorted and bounded above by the
suffix (`SelInv arr i`), then iteration `i` succeeds, permutes the array
(so together with `SelInv` the prefix holds the smallest elements of the
multiset), and reestablishes the invariant for `i+1`, now covering positions
`0 .. i`. -/
theorem selection_invariant_step (arr : List Int) (i : Nat) (hi : i < arr.length)
    (hinv : SelInv arr i) :
    ∃ a2 c s, selStep arr arr.length i = some (a2, c, s) ∧ a2.Perm arr ∧
      SelInv a2 (i+1) := by
  obtain ⟨a2, c, s, heq, _, _, _, hperm, hinv2, _⟩ :=
    selStep_inv arr arr.length i rfl hi hinv
  exact ⟨a2, c, s, heq, hperm, hinv2⟩

/-- Witness for C10: one concrete iteration at `i = 0` on `[3, 1, 2]`. -/
theorem selection_invariant_step_witness :
    ∃ a2 c s, selStep [3, 1, 2] ([3, 1, 2] : List Int).length 0 = some (a2, c, s) ∧
      a2.Perm [3, 1, 2] ∧ SelInv a2 1 :=
  selection_invariant_step [3, 1, 2] 0 (by simp) ⟨by simp, by simp⟩
